import Mathlib

/-!
# Verification of `RefPreparer._rename_clusters` (ariba, `src/ariba/ref_preparer.py`)

This file gives a shallow embedding of the static method
`RefPreparer._rename_clusters` and proves the specified properties of the
cluster-naming algorithm: base-name derivation from dotted identifiers,
collision suffixing with retroactive `_1` demotion, uniqueness, coverage,
determinism and totality behaviour.

Modelling choices:
* a Python `set` of member identifiers is a `Finset String`;
* the input dict `clusters_in` is an association list
  `List (String × Finset String)` (a Python dict is insertion ordered; the
  function only reads it through `sorted(clusters_in.items())`);
* the output dict `new_clusters` is an insertion-ordered association list:
  assigning to a fresh key appends at the end, `del` removes the entry;
* the dict `key_count` is a function `String → Option Nat` (only ever used
  through point lookups);
* the three `assert` statements of the source are modelled by returning
  `none` (Python raises `AssertionError`), so the embedded function returns
  `Option`.
-/

namespace Ariba

/-- `name.split('.')[0]`: the characters of `name` before the first `'.'`.
(For a string containing no dot this is the whole string, exactly as in
Python; the source only uses it under the guard `'.' in name`.) -/
def predot (s : String) : String := ⟨s.data.takeWhile (fun c => c ≠ '.')⟩

/-- `'.' in name` (substring test for the one-character string `"."`,
which is the same as character membership). -/
def hasDot (s : String) : Bool := s.data.contains '.'

/-- `min_prefix_length = 3` from the source. -/
def min_stem_length : Nat := 3

/-- A member identifier contributes to the table `names_before_dots` iff it
contains a dot and the part before the first dot has length `≥ 3`
(source lines 65–67). -/
def qualifies (m : String) : Bool :=
  hasDot m && decide (min_stem_length ≤ (predot m).length)

/-- The members of the cluster that contribute to `names_before_dots`. -/
def qualMembers (members : Finset String) : Finset String :=
  members.filter (fun m => qualifies m = true)

/-- The key set of the table `names_before_dots`: the candidate stems
(the pre-dot parts of qualifying members). -/
def candStems (members : Finset String) : Finset String :=
  (qualMembers members).image predot

/-- The entry `names_before_dots[p]`: how many members of the cluster have
qualifying pre-dot part `p`.  (Members are a set, so the Python counter
equals this cardinality.) -/
def stemCount (members : Finset String) (p : String) : Nat :=
  ((qualMembers members).filter (fun m => predot m = p)).card

/-- Longest common leading run of two character lists. -/
def lcpChars : List Char → List Char → List Char
  | a :: as, b :: bs => if a = b then a :: lcpChars as bs else []
  | _, _ => []

/-- `os.path.commonprefix` of a list of strings: the longest string that is
a leading substring of every element (empty for the empty list).  The
result does not depend on the order of the list. -/
def commonStem (l : List String) : String :=
  match l with
  | [] => ""
  | x :: xs => ⟨xs.foldl (fun acc s => lcpChars acc s.data) x.data⟩

/-- `max(list(names_before_dots.values()))` for a non-empty list of counts
(the source only evaluates it on a non-empty table). -/
def listMax (l : List Nat) : Nat := l.foldr max 0

/-- Lexicographic comparison of character lists by code point: this is how
Python compares strings (`sorted`, `list.sort`, `min`). -/
def lexLe : List Char → List Char → Bool
  | [], _ => true
  | _ :: _, [] => false
  | x :: xs, y :: ys => if x = y then lexLe xs ys else decide (x < y)

/-- Lexicographic order on strings, as used by Python's string comparison. -/
def strLe (s t : String) : Prop := lexLe s.data t.data = true

instance : DecidableRel strLe :=
  fun s t => inferInstanceAs (Decidable (lexLe s.data t.data = true))

theorem lexLe_total (a b : List Char) : lexLe a b = true ∨ lexLe b a = true := by
  induction a generalizing b with
  | nil => exact Or.inl rfl
  | cons x xs ih =>
      cases b with
      | nil => exact Or.inr rfl
      | cons y ys =>
          by_cases hxy : x = y
          · subst hxy
            simpa [lexLe] using ih ys
          · rcases lt_trichotomy x y with h | h | h
            · left; simp [lexLe, hxy, h]
            · exact absurd h hxy
            · right
              have hyx : ¬ y = x := fun hh => hxy hh.symm
              simp [lexLe, hyx, h]

theorem lexLe_antisymm {a b : List Char} (h₁ : lexLe a b = true)
    (h₂ : lexLe b a = true) : a = b := by
  induction a generalizing b with
  | nil =>
      cases b with
      | nil => rfl
      | cons y ys => simp [lexLe] at h₂
  | cons x xs ih =>
      cases b with
      | nil => simp [lexLe] at h₁
      | cons y ys =>
          by_cases hxy : x = y
          · subst hxy
            simp only [lexLe, if_pos rfl] at h₁ h₂
            rw [ih h₁ h₂]
          · have hyx : ¬ y = x := fun hh => hxy hh.symm
            simp only [lexLe, if_neg hxy, decide_eq_true_eq] at h₁
            simp only [lexLe, if_neg hyx, decide_eq_true_eq] at h₂
            exact absurd h₂ (not_lt_of_lt h₁)

theorem lexLe_trans {a b c : List Char} (h₁ : lexLe a b = true)
    (h₂ : lexLe b c = true) : lexLe a c = true := by
  induction a generalizing b c with
  | nil => rfl
  | cons x xs ih =>
      cases b with
      | nil => simp [lexLe] at h₁
      | cons y ys =>
          cases c with
          | nil => simp [lexLe] at h₂
          | cons z zs =>
              by_cases hxy : x = y <;> by_cases hyz : y = z
              · subst hxy; subst hyz
                simp only [lexLe, if_pos rfl] at h₁ h₂ ⊢
                exact ih h₁ h₂
              · subst hxy
                simp only [lexLe, if_neg hyz] at h₂ ⊢
                exact h₂
              · subst hyz
                simp only [lexLe, if_neg hxy] at h₁ ⊢
                exact h₁
              · simp only [lexLe, if_neg hxy, decide_eq_true_eq] at h₁
                simp only [lexLe, if_neg hyz, decide_eq_true_eq] at h₂
                have hxz : ¬ x = z := by
                  intro hh
                  exact absurd (hh ▸ h₁) (not_lt_of_lt h₂)
                simp only [lexLe, if_neg hxz, decide_eq_true_eq]
                exact h₁.trans h₂

instance : IsTotal String strLe := ⟨fun a b => lexLe_total a.data b.data⟩

instance : IsTrans String strLe := ⟨fun _ _ _ h₁ h₂ => lexLe_trans h₁ h₂⟩

instance : IsAntisymm String strLe :=
  ⟨fun a b h₁ h₂ => by
    cases a; cases b
    exact congrArg String.mk (lexLe_antisymm h₁ h₂)⟩

/-- Sorting a list of strings; permutationally equal lists sort equally. -/
theorem insertionSort_eq_of_perm {l₁ l₂ : List String} (h : l₁.Perm l₂) :
    List.insertionSort strLe l₁ = List.insertionSort strLe l₂ :=
  List.eq_of_perm_of_sorted
    ((List.perm_insertionSort _ l₁).trans (h.trans (List.perm_insertionSort _ l₂).symm))
    (List.sorted_insertionSort _ l₁) (List.sorted_insertionSort _ l₂)

/-- The sorted list of elements of a multiset of strings.  (Used instead of
`Finset.sort` because it evaluates by kernel reduction.) -/
def multisetSorted (s : Multiset String) : List String :=
  Quot.liftOn s (fun l => List.insertionSort strLe l)
    (fun _ _ h => insertionSort_eq_of_perm h)

/-- The keys of the table `names_before_dots`, listed canonically in
increasing order. -/
def stemList (members : Finset String) : List String :=
  multisetSorted (candStems members).val

/-- Base-name derivation for one cluster (source lines 63–84).  The table
`names_before_dots` is represented canonically by the sorted list of its
keys (`candStems`); every use the source makes of the table — key count,
the single key, sum of values, `os.path.commonprefix` of the keys, maximal
value, sorted list of maximisers — is independent of Python's set/dict
iteration order, so this canonical representation computes the same name.
With a single key `p`, `sum(names_before_dots.values())` is the number of
qualifying members, i.e. `stemCount members p`. -/
def baseName (members : Finset String) : String :=
  match stemList members with
  | [] => "cluster"
  | [p] => if stemCount members p < members.card then p ++ "+" else p
  | p :: q :: rest =>
      let cs := commonStem (p :: q :: rest)
      if cs = "" ∨ cs.length < min_stem_length then
        let maxValue := listMax ((p :: q :: rest).map (stemCount members))
        (((p :: q :: rest).filter (fun x => stemCount members x = maxValue)).headD "") ++ "+"
      else cs ++ "-"

/-- The state of the renaming loop: `new_clusters` (insertion-ordered
association list) and `key_count`. -/
abbrev NamerState := List (String × Finset String) × (String → Option Nat)

/-- `k in new_clusters`. -/
def keyMem (k : String) (l : List (String × Finset String)) : Bool :=
  l.any (fun p => p.1 == k)

/-- `new_clusters[k]` for a key that is present (default irrelevant). -/
def lookupVal (k : String) (l : List (String × Finset String)) : Finset String :=
  (List.lookup k l).getD ∅

/-- Point update of `key_count`. -/
def updateCount (kc : String → Option Nat) (k : String) (n : Nat) :
    String → Option Nat :=
  fun x => if x = k then some n else kc x

/-- One iteration of the renaming loop (source lines 62–100) for the
cluster with member set `members`.  Returns `none` exactly when one of the
source's `assert`s would fail. -/
def renameStep (st : NamerState) (members : Finset String) : Option NamerState :=
  match st.2 (baseName members) with
  | some c =>
      if keyMem (baseName members) st.1 then
        -- `new_key in key_count` and `new_key in new_clusters`: demotion
        if c = 1 then
          if keyMem (baseName members ++ "_1") st.1 then none
          else
            if keyMem (baseName members ++ "_" ++ Nat.repr (c + 1))
                ((st.1.eraseP (fun p => p.1 == baseName members)) ++
                  [(baseName members ++ "_1", lookupVal (baseName members) st.1)]) then
              none
            else
              some (((st.1.eraseP (fun p => p.1 == baseName members)) ++
                  [(baseName members ++ "_1", lookupVal (baseName members) st.1)]) ++
                  [(baseName members ++ "_" ++ Nat.repr (c + 1), members)],
                updateCount st.2 (baseName members) (c + 1))
        else none -- `assert key_count[new_key] == 1` fails
      else
        -- already counted but not a current key: plain suffixing
        if keyMem (baseName members ++ "_" ++ Nat.repr (c + 1)) st.1 then none
        else
          some (st.1 ++ [(baseName members ++ "_" ++ Nat.repr (c + 1), members)],
            updateCount st.2 (baseName members) (c + 1))
  | none =>
      if keyMem (baseName members) st.1 then none
      else
        some (st.1 ++ [(baseName members, members)],
          updateCount st.2 (baseName members) 1)

/-- The renaming loop over the member sets taken in sorted-key order. -/
def runSteps (st : NamerState) : List (Finset String) → Option NamerState
  | [] => some st
  | m :: rest =>
      match renameStep st m with
      | none => none
      | some st' => runSteps st' rest

/-- The initial loop state: `new_clusters = {}`, `key_count = {}`. -/
def initState : NamerState := ([], fun _ => none)

/-- Comparison of dict items by key. -/
def keyLe (a b : String × Finset String) : Prop := strLe a.1 b.1

instance : DecidableRel keyLe := fun a b => inferInstanceAs (Decidable (strLe a.1 b.1))

instance : IsTotal (String × Finset String) keyLe := ⟨fun a b => total_of strLe a.1 b.1⟩

instance : IsTrans (String × Finset String) keyLe :=
  ⟨fun _ _ _ h₁ h₂ => Trans.trans (r := strLe) h₁ h₂⟩

/-- `sorted(clusters_in.items())`: for a dict (pairwise-distinct keys) the
comparison of pairs never reaches the second component, so this is a sort
by key. -/
def sortClusters (clusters_in : List (String × Finset String)) :
    List (String × Finset String) :=
  List.insertionSort keyLe clusters_in

/-- The member sets of the input in sorted-key order (the loop reads
nothing else of the input: `old_name` is never used in the body). -/
def sortedMembers (clusters_in : List (String × Finset String)) :
    List (Finset String) :=
  (sortClusters clusters_in).map Prod.snd

/-- `RefPreparer._rename_clusters` (source lines 56–103): `some` of the
final `new_clusters` dict, or `none` if an `assert` fails. -/
def rename_clusters (clusters_in : List (String × Finset String)) :
    Option (List (String × Finset String)) :=
  (runSteps initState (sortedMembers clusters_in)).map Prod.fst

/-! ## Association-list helper lemmas -/

theorem keyMem_iff {k : String} {l : List (String × Finset String)} :
    keyMem k l = true ↔ ∃ p ∈ l, p.1 = k := by
  simp [keyMem, List.any_eq_true]

theorem keyMem_eq_false {k : String} {l : List (String × Finset String)} :
    ¬ keyMem k l = true ↔ ∀ p ∈ l, p.1 ≠ k := by
  simp only [keyMem, List.any_eq_true, beq_iff_eq, not_exists, not_and]

theorem keyMem_append {k : String} {l₁ l₂ : List (String × Finset String)} :
    keyMem k (l₁ ++ l₂) = (keyMem k l₁ || keyMem k l₂) := by
  simp [keyMem, List.any_append]

theorem lookup_prepend_ne {l₁ l₂ : List (String × Finset String)} {k : String}
    {v : Finset String} (h : ∀ p ∈ l₁, p.1 ≠ k) :
    List.lookup k (l₁ ++ (k, v) :: l₂) = some v := by
  induction l₁ with
  | nil => simp [List.lookup]
  | cons p l ih =>
      have hpk : ¬ (k == p.1) = true := by
        simp only [beq_iff_eq]
        exact fun hh => (h p (List.mem_cons_self p l)) hh.symm
      simp only [List.cons_append, List.lookup, Bool.not_eq_true] at hpk ⊢
      rw [hpk]
      exact ih (fun q hq => h q (List.mem_cons_of_mem p hq))

/-- Decomposition of `new_clusters` around a present key, together with
what `del new_clusters[k]` (the first `eraseP`) and `new_clusters[k]`
(the `lookup`) do to it. -/
theorem eraseP_key_decomp {l : List (String × Finset String)} {k : String}
    (h : ∃ p ∈ l, p.1 = k) :
    ∃ v l₁ l₂, (∀ p ∈ l₁, p.1 ≠ k) ∧ l = l₁ ++ (k, v) :: l₂ ∧
      l.eraseP (fun p => p.1 == k) = l₁ ++ l₂ ∧ List.lookup k l = some v := by
  obtain ⟨p, hp, hpk⟩ := h
  obtain ⟨a', l₁, l₂, hnone, hpa, hl, he⟩ :=
    List.exists_of_eraseP (p := fun p => p.1 == k) hp (by simp [hpk])
  have ha' : a'.1 = k := by simpa using hpa
  refine ⟨a'.2, l₁, l₂, fun q hq => by simpa using hnone q hq, ?_, ?_, ?_⟩
  · rw [hl, ha'.symm]
  · exact he
  · rw [hl, ha'.symm]
    exact lookup_prepend_ne (k := a'.1) (fun q hq => by simpa [ha'] using hnone q hq)

theorem nodup_keys_middle {l₁ l₂ : List (String × Finset String)} {k : String}
    {v : Finset String} (h : ((l₁ ++ (k, v) :: l₂).map Prod.fst).Nodup) :
    ((l₁ ++ l₂).map Prod.fst).Nodup ∧ ∀ q ∈ l₁ ++ l₂, q.1 ≠ k := by
  simp only [List.map_append, List.map_cons] at h
  have h' := h
  rw [List.nodup_middle] at h'
  constructor
  · rw [← List.map_append] at h'
    exact h'.of_cons
  · intro q hq hqk
    have : k ∈ (l₁ ++ l₂).map Prod.fst := by
      rw [← hqk]
      exact List.mem_map_of_mem Prod.fst hq
    rw [← List.map_append] at h'
    exact (List.nodup_cons.mp h').1 this

theorem mem_eraseP_key {l : List (String × Finset String)} {k : String}
    (hnd : (l.map Prod.fst).Nodup) (hmem : ∃ p ∈ l, p.1 = k) :
    ∀ q, q ∈ l.eraseP (fun p => p.1 == k) ↔ q ∈ l ∧ q.1 ≠ k := by
  obtain ⟨v, l₁, l₂, hl₁, hl, he, _⟩ := eraseP_key_decomp hmem
  subst hl
  rw [he]
  intro q
  obtain ⟨-, hne⟩ := nodup_keys_middle hnd
  constructor
  · intro hq
    refine ⟨?_, hne q hq⟩
    rcases List.mem_append.mp hq with hq | hq
    · exact List.mem_append.mpr (Or.inl hq)
    · exact List.mem_append.mpr (Or.inr (List.mem_cons_of_mem _ hq))
  · rintro ⟨hq, hqk⟩
    rcases List.mem_append.mp hq with hq | hq
    · exact List.mem_append.mpr (Or.inl hq)
    · rcases List.mem_cons.mp hq with rfl | hq
      · exact absurd rfl hqk
      · exact List.mem_append.mpr (Or.inr hq)

theorem nodup_keys_snoc {l : List (String × Finset String)}
    {e : String × Finset String} (hnd : (l.map Prod.fst).Nodup)
    (hfresh : ¬ keyMem e.1 l = true) : ((l ++ [e]).map Prod.fst).Nodup := by
  rw [List.map_append]
  refine List.Nodup.append hnd (List.nodup_singleton _) ?_
  intro x hx hx'
  simp only [List.map_cons, List.map_nil, List.mem_singleton] at hx'
  subst hx'
  obtain ⟨q, hq, hqk⟩ := List.mem_map.mp hx
  exact (keyMem_eq_false.mp hfresh q hq) hqk

/-! ## C1: the returned mapping has pairwise-distinct keys -/

theorem renameStep_nodup {st st' : NamerState} {m : Finset String}
    (hnd : (st.1.map Prod.fst).Nodup) (h : renameStep st m = some st') :
    (st'.1.map Prod.fst).Nodup := by
  simp only [renameStep] at h
  split at h
  · -- key_count has the base name
    rename_i c hkc
    split at h
    · -- demotion branch
      rename_i hmem
      split at h
      · split at h
        · exact absurd h (by simp)
        · split at h
          · exact absurd h (by simp)
          · rename_i hc1 h1fresh hnfresh
            cases h
            have hmem' := keyMem_iff.mp hmem
            obtain ⟨v, l₁, l₂, hl₁, hl, he, hlk⟩ := eraseP_key_decomp hmem'
            have hnd₂ : (((st.1.eraseP (fun p => p.1 == baseName m)) ++
                [(baseName m ++ "_1", lookupVal (baseName m) st.1)]).map Prod.fst).Nodup := by
              refine nodup_keys_snoc ?_ ?_
              · rw [he]
                rw [hl] at hnd
                exact (nodup_keys_middle hnd).1
              · rw [keyMem_eq_false]
                intro q hq
                have hq' : q ∈ st.1 := by
                  rw [he] at hq
                  rw [hl]
                  rcases List.mem_append.mp hq with hq | hq
                  · exact List.mem_append.mpr (Or.inl hq)
                  · exact List.mem_append.mpr (Or.inr (List.mem_cons_of_mem _ hq))
                exact keyMem_eq_false.mp h1fresh q hq'
            exact nodup_keys_snoc hnd₂ hnfresh
      · exact absurd h (by simp)
    · -- plain suffixing
      split at h
      · exact absurd h (by simp)
      · rename_i hfresh
        cases h
        exact nodup_keys_snoc hnd hfresh
  · -- base name not yet counted
    split at h
    · exact absurd h (by simp)
    · rename_i hkc hfresh
      cases h
      exact nodup_keys_snoc hnd hfresh

theorem runSteps_nodup {st st' : NamerState} {ms : List (Finset String)}
    (hnd : (st.1.map Prod.fst).Nodup) (h : runSteps st ms = some st') :
    (st'.1.map Prod.fst).Nodup := by
  induction ms generalizing st with
  | nil =>
      simp only [runSteps] at h
      cases h
      exact hnd
  | cons m rest ih =>
      simp only [runSteps] at h
      split at h
      · exact absurd h (by simp)
      · rename_i st₁ hstep
        exact ih (renameStep_nodup hnd hstep) h

/-! ## C2: coverage — one output entry per cluster, member sets re-keyed -/

theorem renameStep_values {st st' : NamerState} {m : Finset String}
    (h : renameStep st m = some st') :
    st'.1.length = st.1.length + 1 ∧
      (st'.1.map Prod.snd).Perm (st.1.map Prod.snd ++ [m]) := by
  simp only [renameStep] at h
  split at h
  · rename_i c hkc
    split at h
    · rename_i hmem
      split at h
      · split at h
        · exact absurd h (by simp)
        · split at h
          · exact absurd h (by simp)
          · cases h
            obtain ⟨v, l₁, l₂, hl₁, hl, he, hlk⟩ := eraseP_key_decomp (keyMem_iff.mp hmem)
            have hval : lookupVal (baseName m) st.1 = v := by
              simp [lookupVal, hlk]
            constructor
            · rw [he, hl]
              simp only [List.length_append, List.length_cons, List.length_nil]
              omega
            · rw [he, hval, hl]
              simp only [List.map_append, List.map_cons, List.map_nil, List.append_assoc,
                List.cons_append, List.nil_append]
              exact List.Perm.append_left _ List.perm_middle
      · exact absurd h (by simp)
    · split at h
      · exact absurd h (by simp)
      · cases h
        exact ⟨by simp, by simp⟩
  · split at h
    · exact absurd h (by simp)
    · cases h
      exact ⟨by simp, by simp⟩

theorem runSteps_values {st st' : NamerState} {ms : List (Finset String)}
    (h : runSteps st ms = some st') :
    st'.1.length = st.1.length + ms.length ∧
      (st'.1.map Prod.snd).Perm (st.1.map Prod.snd ++ ms) := by
  induction ms generalizing st with
  | nil =>
      simp only [runSteps] at h
      cases h
      exact ⟨rfl, by simp⟩
  | cons m rest ih =>
      simp only [runSteps] at h
      split at h
      · exact absurd h (by simp)
      · rename_i st₁ hstep
        obtain ⟨hlen₁, hperm₁⟩ := renameStep_values hstep
        obtain ⟨hlen₂, hperm₂⟩ := ih h
        refine ⟨by simp only [List.length_cons]; omega, ?_⟩
        refine hperm₂.trans ((hperm₁.append_right rest).trans ?_)
        have heq : (List.map Prod.snd st.1 ++ [m]) ++ rest =
            List.map Prod.snd st.1 ++ m :: rest := by simp
        rw [heq]

/-! ## Facts about the canonical stem list -/

theorem multisetSorted_sorted (s : Multiset String) :
    List.Sorted strLe (multisetSorted s) := by
  induction s using Quot.ind with
  | _ l => exact List.sorted_insertionSort strLe l

theorem coe_multisetSorted (s : Multiset String) : (multisetSorted s : Multiset String) = s := by
  induction s using Quot.ind with
  | _ l => exact Multiset.coe_eq_coe.mpr (List.perm_insertionSort strLe l)

theorem mem_stemList {members : Finset String} {p : String} :
    p ∈ stemList members ↔ p ∈ candStems members := by
  have hco : ((stemList members : List String) : Multiset String) = (candStems members).val := by
    rw [stemList]
    exact coe_multisetSorted _
  rw [← Multiset.mem_coe, hco]
  exact Finset.mem_def.symm

theorem stemList_nodup (members : Finset String) : (stemList members).Nodup := by
  have h : ((stemList members : List String) : Multiset String).Nodup := by
    rw [stemList, coe_multisetSorted]
    exact (candStems members).nodup
  exact Multiset.coe_nodup.mp h

theorem stemList_sorted (members : Finset String) :
    List.Sorted strLe (stemList members) :=
  multisetSorted_sorted _

/-- Claim C7: a cluster none of whose members yields a qualifying pre-dot
part gets base name `"cluster"`, and a singleton input consisting of such a
cluster is renamed to the key `"cluster"`. -/
theorem C7_no_stem (k : String) (members : Finset String)
    (h : candStems members = ∅) :
    baseName members = "cluster" ∧
      rename_clusters [(k, members)] = some [("cluster", members)] := by
  have hsl : stemList members = [] := by
    rw [stemList, h]
    rfl
  have hb : baseName members = "cluster" := by
    simp only [baseName, hsl]
  refine ⟨hb, ?_⟩
  have hsm : sortedMembers [(k, members)] = [members] := rfl
  rw [rename_clusters, hsm]
  simp only [runSteps, renameStep, hb]
  rfl

/-- Claim C5: a cluster whose members yield exactly one qualifying stem `p`
gets base name `p`, with `+` appended exactly when the number of members
sharing the stem falls short of the cluster size. -/
theorem C5_single_stem (members : Finset String) (p : String)
    (h : candStems members = {p}) :
    baseName members = (if stemCount members p < members.card then p ++ "+" else p) ∧
      (baseName members = p ++ "+" ↔ stemCount members p < members.card) := by
  have hsl : stemList members = [p] := by
    rw [stemList, h]
    rfl
  have hb : baseName members =
      (if stemCount members p < members.card then p ++ "+" else p) := by
    simp only [baseName, hsl]
  refine ⟨hb, ?_⟩
  by_cases hc : stemCount members p < members.card
  · rw [hb, if_pos hc]
    simp [hc]
  · rw [hb, if_neg hc]
    constructor
    · intro hh
      have hlen := congrArg String.length hh
      rw [String.length_append] at hlen
      have h1 : ("+" : String).length = 1 := rfl
      omega
    · intro hh
      exact absurd hh hc

/-! ## C6: clusters with two or more candidate stems -/

theorem lexLe_refl (a : List Char) : lexLe a a = true := by
  induction a with
  | nil => rfl
  | cons x xs ih => simp [lexLe, ih]

theorem lcpChars_cons_eq (x : Char) (as bs : List Char) :
    lcpChars (x :: as) (x :: bs) = x :: lcpChars as bs := by
  simp [lcpChars]

theorem lcpChars_isPre_left (a : List Char) :
    ∀ b : List Char, List.IsPrefix (lcpChars a b) a := by
  induction a with
  | nil =>
      intro b
      cases b <;> exact List.nil_prefix
  | cons x as ih =>
      intro b
      cases b with
      | nil => exact List.nil_prefix
      | cons y bs =>
          by_cases hxy : x = y
          · subst hxy
            rw [lcpChars_cons_eq]
            obtain ⟨t, ht⟩ := ih bs
            exact ⟨t, by rw [List.cons_append, ht]⟩
          · simp only [lcpChars, if_neg hxy]
            exact List.nil_prefix

theorem lcpChars_isPre_right (a : List Char) :
    ∀ b : List Char, List.IsPrefix (lcpChars a b) b := by
  induction a with
  | nil =>
      intro b
      cases b <;> exact List.nil_prefix
  | cons x as ih =>
      intro b
      cases b with
      | nil => exact List.nil_prefix
      | cons y bs =>
          by_cases hxy : x = y
          · subst hxy
            rw [lcpChars_cons_eq]
            obtain ⟨t, ht⟩ := ih bs
            exact ⟨t, by rw [List.cons_append, ht]⟩
          · simp only [lcpChars, if_neg hxy]
            exact List.nil_prefix

theorem isPre_lcpChars {c : List Char} :
    ∀ {a b : List Char}, List.IsPrefix c a → List.IsPrefix c b →
      List.IsPrefix c (lcpChars a b) := by
  induction c with
  | nil => exact fun _ _ => List.nil_prefix
  | cons cx cs ih =>
      intro a b ha hb
      obtain ⟨t, ht⟩ := ha
      obtain ⟨u, hu⟩ := hb
      subst ht
      subst hu
      simp only [List.cons_append]
      rw [lcpChars_cons_eq]
      obtain ⟨w, hw⟩ := ih (List.prefix_append cs t) (List.prefix_append cs u)
      exact ⟨w, by rw [List.cons_append, hw]⟩

theorem foldl_lcp_isPre_init (xs : List String) :
    ∀ init : List Char,
      List.IsPrefix (xs.foldl (fun acc s => lcpChars acc s.data) init) init := by
  induction xs with
  | nil => exact fun init => List.prefix_refl init
  | cons s ss ih =>
      intro init
      simp only [List.foldl_cons]
      exact (ih (lcpChars init s.data)).trans (lcpChars_isPre_left init s.data)

theorem foldl_lcp_isPre_mem (xs : List String) :
    ∀ (init : List Char) (y : String), y ∈ xs →
      List.IsPrefix (xs.foldl (fun acc s => lcpChars acc s.data) init) y.data := by
  induction xs with
  | nil =>
      intro init y hy
      cases hy
  | cons s ss ih =>
      intro init y hy
      simp only [List.foldl_cons]
      rcases List.mem_cons.mp hy with rfl | hy
      · exact (foldl_lcp_isPre_init ss (lcpChars init y.data)).trans
          (lcpChars_isPre_right init y.data)
      · exact ih (lcpChars init s.data) y hy

theorem isPre_foldl_lcp (xs : List String) :
    ∀ {init c : List Char}, List.IsPrefix c init →
      (∀ y ∈ xs, List.IsPrefix c y.data) →
      List.IsPrefix c (xs.foldl (fun acc s => lcpChars acc s.data) init) := by
  induction xs with
  | nil => exact fun h _ => h
  | cons s ss ih =>
      intro init c hinit hall
      simp only [List.foldl_cons]
      exact ih (isPre_lcpChars hinit (hall s (List.mem_cons_self s ss)))
        (fun y hy => hall y (List.mem_cons_of_mem s hy))

theorem commonStem_isCommon {x : String} {xs : List String} :
    ∀ y ∈ x :: xs, List.IsPrefix (commonStem (x :: xs)).data y.data := by
  intro y hy
  rcases List.mem_cons.mp hy with rfl | hy
  · exact foldl_lcp_isPre_init xs y.data
  · exact foldl_lcp_isPre_mem xs x.data y hy

theorem isPre_commonStem {x : String} {xs : List String} {c : List Char}
    (h : ∀ y ∈ x :: xs, List.IsPrefix c y.data) :
    List.IsPrefix c (commonStem (x :: xs)).data :=
  isPre_foldl_lcp xs (h x (List.mem_cons_self x xs))
    (fun y hy => h y (List.mem_cons_of_mem x hy))

theorem le_listMax {l : List Nat} {n : Nat} (h : n ∈ l) : n ≤ listMax l := by
  induction l with
  | nil => cases h
  | cons a tl ih =>
      rcases List.mem_cons.mp h with rfl | h
      · exact le_max_left _ _
      · exact (ih h).trans (le_max_right _ _)

theorem listMax_mem {l : List Nat} (h : l ≠ []) : listMax l ∈ l := by
  induction l with
  | nil => exact absurd rfl h
  | cons a tl ih =>
      cases tl with
      | nil => simp [listMax]
      | cons b tl' =>
          have hre : listMax (a :: b :: tl') = max a (listMax (b :: tl')) := rfl
          rcases max_choice a (listMax (b :: tl')) with hm | hm
          · rw [hre, hm]
            exact List.mem_cons_self _ _
          · rw [hre, hm]
            exact List.mem_cons_of_mem _ (ih (List.cons_ne_nil b tl'))

theorem stemList_length (members : Finset String) :
    (stemList members).length = (candStems members).card := by
  have h : ((stemList members : List String) : Multiset String) = (candStems members).val := by
    rw [stemList]
    exact coe_multisetSorted _
  have := congrArg Multiset.card h
  simpa using this

/-- Claim C6: with two or more candidate stems, the base name is the
longest common leading substring (with `-`) when it is long enough, and
otherwise the lexicographically smallest most-frequent stem (with `+`). -/
theorem C6_multi_stem (members : Finset String) (cp : String)
    (h2 : 2 ≤ (candStems members).card)
    (hcommon : ∀ x ∈ candStems members, List.IsPrefix cp.data x.data)
    (hlongest : ∀ c : String, (∀ x ∈ candStems members, List.IsPrefix c.data x.data) →
      c.length ≤ cp.length) :
    (min_stem_length ≤ cp.length → baseName members = cp ++ "-") ∧
    (cp.length < min_stem_length →
      ∃ m ∈ candStems members,
        (∀ x ∈ candStems members, stemCount members x ≤ stemCount members m) ∧
        (∀ x ∈ candStems members, stemCount members x = stemCount members m → strLe m x) ∧
        baseName members = m ++ "+") := by
  -- the canonical stem list has at least two entries
  obtain ⟨p, q, rest, hsl⟩ : ∃ p q rest, stemList members = p :: q :: rest := by
    have hlen : 2 ≤ (stemList members).length := by
      rw [stemList_length]
      exact h2
    match hl : stemList members with
    | [] => rw [hl] at hlen; simp at hlen
    | [p] => rw [hl] at hlen; simp at hlen
    | p :: q :: rest => exact ⟨p, q, rest, rfl⟩
  have hmem : ∀ y ∈ p :: q :: rest, y ∈ candStems members := by
    intro y hy
    rw [← mem_stemList]
    rw [hsl]
    exact hy
  -- the computed common stem equals the specified one
  have hcseq : commonStem (p :: q :: rest) = cp := by
    have h₁ : List.IsPrefix cp.data (commonStem (p :: q :: rest)).data :=
      isPre_commonStem (fun y hy => hcommon y (hmem y hy))
    have h₂ : (commonStem (p :: q :: rest)).length ≤ cp.length := by
      refine hlongest _ ?_
      intro x hx
      rw [← mem_stemList, hsl] at hx
      exact commonStem_isCommon x hx
    have hdata : cp.data = (commonStem (p :: q :: rest)).data :=
      h₁.eq_of_length_le h₂
    cases cp
    cases hcs : commonStem (p :: q :: rest)
    rw [hcs] at hdata
    simp only at hdata
    rw [hdata]
  constructor
  · -- long common stem: `cp ++ "-"`
    intro hlong
    have hcond : ¬ (commonStem (p :: q :: rest) = "" ∨
        (commonStem (p :: q :: rest)).length < min_stem_length) := by
      rw [hcseq]
      rintro (rfl | hh)
      · simp [String.length, min_stem_length] at hlong
      · omega
    simp only [baseName, hsl, if_neg hcond]
    rw [hcseq]
  · -- short common stem: lexicographically smallest maximiser, `+`
    intro hshort
    have hcond : commonStem (p :: q :: rest) = "" ∨
        (commonStem (p :: q :: rest)).length < min_stem_length := by
      rw [hcseq]
      right
      exact hshort
    -- the maximal count is attained
    have hne : (p :: q :: rest).map (stemCount members) ≠ [] := by simp
    obtain ⟨x0, hx0mem, hx0⟩ : ∃ x ∈ p :: q :: rest,
        stemCount members x = listMax ((p :: q :: rest).map (stemCount members)) := by
      have := listMax_mem hne
      obtain ⟨x, hx, hxeq⟩ := List.mem_map.mp this
      exact ⟨x, hx, hxeq⟩
    have hfilter : x0 ∈ (p :: q :: rest).filter
        (fun x => stemCount members x =
          listMax ((p :: q :: rest).map (stemCount members))) := by
      rw [List.mem_filter]
      exact ⟨hx0mem, by simp [hx0]⟩
    match hf : (p :: q :: rest).filter
        (fun x => stemCount members x =
          listMax ((p :: q :: rest).map (stemCount members))) with
    | [] =>
        rw [hf] at hfilter
        cases hfilter
    | a :: tl =>
        have hamem : a ∈ p :: q :: rest ∧ stemCount members a =
            listMax ((p :: q :: rest).map (stemCount members)) := by
          have : a ∈ (p :: q :: rest).filter
              (fun x => stemCount members x =
                listMax ((p :: q :: rest).map (stemCount members))) := by
            rw [hf]
            exact List.mem_cons_self a tl
          have h' := List.mem_filter.mp this
          exact ⟨h'.1, by simpa using h'.2⟩
        refine ⟨a, hmem a hamem.1, ?_, ?_, ?_⟩
        · intro x hx
          rw [hamem.2]
          refine le_listMax ?_
          rw [← mem_stemList, hsl] at hx
          exact List.mem_map_of_mem _ hx
        · intro x hx hxc
          rw [← mem_stemList, hsl] at hx
          have hxf : x ∈ a :: tl := by
            rw [← hf, List.mem_filter]
            exact ⟨hx, by simp [hxc, hamem.2]⟩
          have hsorted : List.Sorted strLe (a :: tl) := by
            rw [← hf]
            exact List.Pairwise.filter _ (hsl ▸ stemList_sorted members)
          rcases List.mem_cons.mp hxf with rfl | hxf
          · exact lexLe_refl x.data
          · exact List.rel_of_sorted_cons hsorted x hxf
        · simp only [baseName, hsl, if_pos hcond, hf, List.headD_cons]

/-! ## The naming invariant of the renaming loop

For a list `done` of member sets already processed (in sorted-key order),
`finalNameIn done j` is the name the `j`-th cluster carries in
`new_clusters` after the whole of `done` has been processed: its base name
unsuffixed if its base occurs exactly once so far, and `base_k` (with `k`
its occurrence index) otherwise. -/

def basesOf (done : List (Finset String)) : List String := done.map baseName

def occCount (done : List (Finset String)) (j : Nat) : Nat :=
  ((basesOf done).take (j + 1)).count ((basesOf done).getD j "")

def finalNameIn (done : List (Finset String)) (j : Nat) : String :=
  if (basesOf done).count ((basesOf done).getD j "") = 1 then (basesOf done).getD j ""
  else (basesOf done).getD j "" ++ "_" ++ Nat.repr (occCount done j)

theorem getD_mem_of_lt {l : List String} {j : Nat} (h : j < l.length) :
    l.getD j "" ∈ l := by
  rw [List.getD_eq_getElem _ _ h]
  exact List.getElem_mem h

theorem exists_getD_of_mem {l : List String} {b : String} (h : b ∈ l) :
    ∃ j, j < l.length ∧ l.getD j "" = b := by
  obtain ⟨i, hi, he⟩ := List.mem_iff_getElem.mp h
  exact ⟨i, hi, by rw [List.getD_eq_getElem _ _ hi]; exact he⟩

theorem take_count_pos {l : List String} {j : Nat} (h : j < l.length) :
    0 < (l.take (j + 1)).count (l.getD j "") := by
  induction l generalizing j with
  | nil => cases h
  | cons a tl ih =>
      cases j with
      | zero => simp
      | succ j =>
          have hj : j < tl.length := by simpa using h
          have hsub : (tl.take (j + 1)).Sublist (a :: tl.take (j + 1)) :=
            List.sublist_cons_self a _
          have hle := hsub.count_le (tl.getD j "")
          have := ih hj
          simp only [List.take_succ_cons, List.getD_cons_succ]
          omega

theorem take_count_le {l : List String} (j : Nat) (b : String) :
    (l.take (j + 1)).count b ≤ l.count b :=
  (List.take_sublist _ _).count_le b

theorem take_count_inj {l : List String} {j j' : Nat} (hj : j < l.length)
    (hj' : j' < l.length) (hb : l.getD j "" = l.getD j' "")
    (hocc : (l.take (j + 1)).count (l.getD j "") =
      (l.take (j' + 1)).count (l.getD j' "")) : j = j' := by
  induction l generalizing j j' with
  | nil => cases hj
  | cons a tl ih =>
      cases j with
      | zero =>
          cases j' with
          | zero => rfl
          | succ j' =>
              exfalso
              have hj'' : j' < tl.length := by simpa using hj'
              simp only [List.getD_cons_zero, List.getD_cons_succ] at hb hocc
              simp only [List.take_succ_cons, List.count_cons, List.take_zero,
                List.count_nil, beq_iff_eq] at hocc
              rw [← hb] at hocc
              simp only [if_pos rfl] at hocc
              have hpos : 0 < (tl.take (j' + 1)).count (tl.getD j' "") :=
                take_count_pos hj''
              rw [← hb] at hpos
              omega
      | succ j =>
          cases j' with
          | zero =>
              exfalso
              have hjj : j < tl.length := by simpa using hj
              simp only [List.getD_cons_zero, List.getD_cons_succ] at hb hocc
              simp only [List.take_succ_cons, List.count_cons, List.take_zero,
                List.count_nil, beq_iff_eq] at hocc
              rw [hb] at hocc
              simp only [if_pos rfl] at hocc
              have hpos : 0 < (tl.take (j + 1)).count (tl.getD j "") :=
                take_count_pos hjj
              rw [hb] at hpos
              omega
          | succ j' =>
              have hjj : j < tl.length := by simpa using hj
              have hjj' : j' < tl.length := by simpa using hj'
              simp only [List.getD_cons_succ] at hb hocc
              simp only [List.take_succ_cons, List.count_cons] at hocc
              have hite : (if (a == tl.getD j "") = true then 1 else 0) =
                  (if (a == tl.getD j' "") = true then 1 else 0) := by rw [hb]
              have hocc' : (tl.take (j + 1)).count (tl.getD j "") =
                  (tl.take (j' + 1)).count (tl.getD j' "") := by omega
              have := ih hjj hjj' hb hocc'
              omega

theorem basesOf_append (done : List (Finset String)) (m : Finset String) :
    basesOf (done ++ [m]) = basesOf done ++ [baseName m] := by
  simp [basesOf]

theorem basesOf_length (done : List (Finset String)) :
    (basesOf done).length = done.length := by
  simp [basesOf]

theorem count_basesOf_append_self (done : List (Finset String)) (m : Finset String) :
    (basesOf (done ++ [m])).count (baseName m) =
      (basesOf done).count (baseName m) + 1 := by
  rw [basesOf_append, List.count_append]
  simp

theorem count_basesOf_append_ne {b' : String} {m : Finset String}
    (done : List (Finset String)) (h : b' ≠ baseName m) :
    (basesOf (done ++ [m])).count b' = (basesOf done).count b' := by
  rw [basesOf_append, List.count_append]
  have : ([baseName m].count b') = 0 := by
    simp [List.count_singleton]
    exact fun hh => absurd hh.symm h
  omega

theorem basesOf_getD_lt {done : List (Finset String)} {j : Nat}
    (m : Finset String) (h : j < done.length) :
    (basesOf (done ++ [m])).getD j "" = (basesOf done).getD j "" := by
  rw [basesOf_append]
  exact List.getD_append _ _ _ _ (by rw [basesOf_length]; exact h)

theorem basesOf_getD_last (done : List (Finset String)) (m : Finset String) :
    (basesOf (done ++ [m])).getD done.length "" = baseName m := by
  rw [basesOf_append]
  rw [List.getD_append_right _ _ _ _ (by rw [basesOf_length])]
  rw [basesOf_length]
  simp

theorem getD_append_lt {done : List (Finset String)} {j : Nat}
    (m : Finset String) (h : j < done.length) :
    (done ++ [m]).getD j ∅ = done.getD j ∅ :=
  List.getD_append _ _ _ _ h

theorem getD_append_last (done : List (Finset String)) (m : Finset String) :
    (done ++ [m]).getD done.length ∅ = m := by
  rw [List.getD_append_right _ _ _ _ (le_refl _)]
  simp

theorem occCount_append_lt {done : List (Finset String)} {j : Nat}
    (m : Finset String) (h : j < done.length) :
    occCount (done ++ [m]) j = occCount done j := by
  unfold occCount
  rw [basesOf_getD_lt m h, basesOf_append,
    List.take_append_of_le_length (by rw [basesOf_length]; omega)]

theorem occCount_append_last (done : List (Finset String)) (m : Finset String) :
    occCount (done ++ [m]) done.length =
      (basesOf done).count (baseName m) + 1 := by
  unfold occCount
  rw [basesOf_getD_last, basesOf_append]
  rw [List.take_of_length_le (by rw [List.length_append, basesOf_length]; simp)]
  rw [List.count_append]
  simp

theorem finalNameIn_stable {done : List (Finset String)} {m : Finset String} {j : Nat}
    (hj : j < done.length)
    (h2 : (basesOf done).getD j "" = baseName m → 2 ≤ (basesOf done).count (baseName m)) :
    finalNameIn (done ++ [m]) j = finalNameIn done j := by
  unfold finalNameIn
  rw [basesOf_getD_lt m hj, occCount_append_lt m hj]
  by_cases hbj : (basesOf done).getD j "" = baseName m
  · have hc := h2 hbj
    rw [hbj, count_basesOf_append_self]
    rw [if_neg (by omega), if_neg (by omega)]
  · rw [count_basesOf_append_ne done hbj]

theorem finalNameIn_append_demoted {done : List (Finset String)} {m : Finset String} {j : Nat}
    (hj : j < done.length)
    (hbj : (basesOf done).getD j "" = baseName m)
    (hc : (basesOf done).count (baseName m) = 1) :
    finalNameIn (done ++ [m]) j = baseName m ++ "_" ++ Nat.repr 1 ∧
      finalNameIn done j = baseName m := by
  have hocc : occCount done j = 1 := by
    have h1 : 0 < occCount done j :=
      take_count_pos (l := basesOf done) (by rw [basesOf_length]; exact hj)
    have h2 : occCount done j ≤ (basesOf done).count ((basesOf done).getD j "") :=
      take_count_le _ _
    rw [hbj, hc] at h2
    omega
  constructor
  · unfold finalNameIn
    rw [basesOf_getD_lt m hj, occCount_append_lt m hj, hbj, count_basesOf_append_self]
    rw [hc, if_neg (by omega), hocc]
  · unfold finalNameIn
    rw [hbj, hc, if_pos rfl]

theorem finalNameIn_append_last (done : List (Finset String)) (m : Finset String) :
    finalNameIn (done ++ [m]) done.length =
      if (basesOf done).count (baseName m) = 0 then baseName m
      else baseName m ++ "_" ++ Nat.repr ((basesOf done).count (baseName m) + 1) := by
  unfold finalNameIn
  rw [basesOf_getD_last, occCount_append_last, count_basesOf_append_self]
  by_cases h0 : (basesOf done).count (baseName m) = 0
  · rw [if_pos (by omega), if_pos h0]
  · rw [if_neg (by omega), if_neg h0]

/-- The loop invariant.  After processing the member sets `done` (in order),
(1) the keys of `new_clusters` are pairwise distinct, (2) its entries are
exactly the pairs `(finalNameIn done j, done[j])`, (3) `key_count` holds
each base name's number of occurrences so far, and (4) the final names of
distinct positions are distinct. -/
def Inv (done : List (Finset String)) (st : NamerState) : Prop :=
  ((st.1.map Prod.fst).Nodup) ∧
  (∀ nm v, (nm, v) ∈ st.1 ↔
    ∃ j, j < done.length ∧ nm = finalNameIn done j ∧ v = done.getD j ∅) ∧
  (∀ b', st.2 b' = if (basesOf done).count b' = 0 then none
    else some ((basesOf done).count b')) ∧
  (∀ j j', j < done.length → j' < done.length →
    finalNameIn done j = finalNameIn done j' → j = j')

/-- When a base name occurs exactly once so far, it has a unique position,
and that position's final name is the bare base name. -/
theorem pos_of_count_one {done : List (Finset String)} {b : String}
    (hc : (basesOf done).count b = 1) :
    ∃ j, j < done.length ∧ (basesOf done).getD j "" = b ∧ finalNameIn done j = b ∧
      (∀ j', j' < done.length → (basesOf done).getD j' "" = b → j' = j) := by
  have hmem : b ∈ basesOf done := List.count_pos_iff.mp (by omega)
  obtain ⟨j, hj, hgd⟩ := exists_getD_of_mem hmem
  have hjlen : j < done.length := by rw [← basesOf_length]; exact hj
  refine ⟨j, hjlen, hgd, ?_, ?_⟩
  · unfold finalNameIn
    rw [hgd, hc, if_pos rfl]
  · intro j' hj' hgd'
    have hj'b : j' < (basesOf done).length := by rw [basesOf_length]; exact hj'
    have h₁ : 0 < ((basesOf done).take (j' + 1)).count ((basesOf done).getD j' "") :=
      take_count_pos hj'b
    have h₂ : ((basesOf done).take (j' + 1)).count ((basesOf done).getD j' "") ≤ 1 := by
      calc ((basesOf done).take (j' + 1)).count ((basesOf done).getD j' "")
          ≤ (basesOf done).count ((basesOf done).getD j' "") := take_count_le _ _
        _ = (basesOf done).count b := by rw [hgd']
        _ = 1 := hc
    have h₃ : 0 < ((basesOf done).take (j + 1)).count ((basesOf done).getD j "") :=
      take_count_pos hj
    have h₄ : ((basesOf done).take (j + 1)).count ((basesOf done).getD j "") ≤ 1 := by
      calc ((basesOf done).take (j + 1)).count ((basesOf done).getD j "")
          ≤ (basesOf done).count ((basesOf done).getD j "") := take_count_le _ _
        _ = (basesOf done).count b := by rw [hgd]
        _ = 1 := hc
    exact take_count_inj hj'b hj (by rw [hgd', hgd]) (by omega)

theorem underscore_one (b : String) : b ++ "_1" = b ++ "_" ++ Nat.repr 1 := by
  rw [String.append_assoc]
  rfl

theorem underscore_two (b : String) : b ++ "_" ++ Nat.repr 2 = b ++ "_2" := by
  rw [String.append_assoc]
  rfl

theorem lookupVal_eq_of_mem {l : List (String × Finset String)} {k : String}
    {w : Finset String} (hnd : (l.map Prod.fst).Nodup) (hmem : (k, w) ∈ l) :
    lookupVal k l = w := by
  obtain ⟨v, l₁, l₂, hl₁, hl, he, hlk⟩ :=
    eraseP_key_decomp ⟨(k, w), hmem, rfl⟩
  have hvw : v = w := by
    rw [hl] at hmem hnd
    rcases List.mem_append.mp hmem with hh | hh
    · exact absurd rfl (hl₁ _ hh)
    · rcases List.mem_cons.mp hh with hh | hh
      · exact (congrArg Prod.snd hh).symm
      · exact absurd rfl ((nodup_keys_middle hnd).2 _ (List.mem_append.mpr (Or.inr hh)))
  rw [lookupVal, hlk]
  simpa using hvw

theorem inv_insert_fresh {done : List (Finset String)} {st : NamerState}
    {m : Finset String} (hinv : Inv done st)
    (hkcb : st.2 (baseName m) = none)
    (hfresh : ¬ keyMem (baseName m) st.1 = true) :
    Inv (done ++ [m])
      (st.1 ++ [(baseName m, m)], updateCount st.2 (baseName m) 1) := by
  obtain ⟨hnd, hmemiff, hkc, hinj⟩ := hinv
  have hc0 : (basesOf done).count (baseName m) = 0 := by
    by_contra h0
    have h := hkc (baseName m)
    rw [hkcb, if_neg h0] at h
    exact Option.noConfusion h
  have hstab : ∀ j, j < done.length →
      (basesOf done).getD j "" = baseName m → False := by
    intro j hj hbj
    have hmm : baseName m ∈ basesOf done := by
      rw [← hbj]
      exact getD_mem_of_lt (by rw [basesOf_length]; exact hj)
    have := List.count_pos_iff.mpr hmm
    omega
  have hname : ∀ j, j < done.length →
      finalNameIn (done ++ [m]) j = finalNameIn done j :=
    fun j hj => finalNameIn_stable hj (fun hbj => (hstab j hj hbj).elim)
  have hlast : finalNameIn (done ++ [m]) done.length = baseName m := by
    rw [finalNameIn_append_last, if_pos hc0]
  have hlen : (done ++ [m]).length = done.length + 1 := by simp
  refine ⟨nodup_keys_snoc hnd hfresh, ?_, ?_, ?_⟩
  · intro nm v
    constructor
    · intro hmm
      rcases List.mem_append.mp hmm with hold | hnew
      · obtain ⟨j, hj, hnm, hv⟩ := (hmemiff nm v).mp hold
        exact ⟨j, by rw [hlen]; omega, by rw [hname j hj]; exact hnm,
          by rw [getD_append_lt m hj]; exact hv⟩
      · have hpair : nm = baseName m ∧ v = m := by simpa using hnew
        exact ⟨done.length, by rw [hlen]; omega, by rw [hlast]; exact hpair.1,
          by rw [getD_append_last]; exact hpair.2⟩
    · rintro ⟨j, hj, hnm, hv⟩
      rw [hlen] at hj
      by_cases hjn : j < done.length
      · refine List.mem_append.mpr (Or.inl ?_)
        refine (hmemiff nm v).mpr ⟨j, hjn, ?_, ?_⟩
        · rw [← hname j hjn]; exact hnm
        · rw [← getD_append_lt m hjn]; exact hv
      · have hj' : j = done.length := by omega
        subst hj'
        refine List.mem_append.mpr (Or.inr ?_)
        rw [hlast] at hnm
        rw [getD_append_last] at hv
        simp [hnm, hv]
  · intro b'
    show updateCount st.2 (baseName m) 1 b' = _
    unfold updateCount
    by_cases hb' : b' = baseName m
    · subst hb'
      rw [if_pos rfl, count_basesOf_append_self, hc0]
      simp
    · rw [if_neg hb', hkc b', count_basesOf_append_ne done hb']
  · intro j j' hj hj' heq
    rw [hlen] at hj hj'
    by_cases h1 : j < done.length <;> by_cases h2 : j' < done.length
    · rw [hname j h1, hname j' h2] at heq
      exact hinj j j' h1 h2 heq
    · have hj'' : j' = done.length := by omega
      subst hj''
      rw [hname j h1, hlast] at heq
      exfalso
      have hent : (finalNameIn done j, done.getD j ∅) ∈ st.1 :=
        (hmemiff _ _).mpr ⟨j, h1, rfl, rfl⟩
      exact hfresh (keyMem_iff.mpr ⟨_, hent, heq⟩)
    · have hj'' : j = done.length := by omega
      subst hj''
      rw [hname j' h2, hlast] at heq
      exfalso
      have hent : (finalNameIn done j', done.getD j' ∅) ∈ st.1 :=
        (hmemiff _ _).mpr ⟨j', h2, rfl, rfl⟩
      exact hfresh (keyMem_iff.mpr ⟨_, hent, heq.symm⟩)
    · omega

theorem inv_insert_suffix {done : List (Finset String)} {st : NamerState}
    {m : Finset String} {c : Nat} (hinv : Inv done st)
    (hkcb : st.2 (baseName m) = some c)
    (hnotmem : ¬ keyMem (baseName m) st.1 = true)
    (hfresh : ¬ keyMem (baseName m ++ "_" ++ Nat.repr (c + 1)) st.1 = true) :
    Inv (done ++ [m])
      (st.1 ++ [(baseName m ++ "_" ++ Nat.repr (c + 1), m)],
        updateCount st.2 (baseName m) (c + 1)) := by
  obtain ⟨hnd, hmemiff, hkc, hinj⟩ := hinv
  have hcc : (basesOf done).count (baseName m) = c ∧ c ≠ 0 := by
    have h := hkc (baseName m)
    rw [hkcb] at h
    by_cases h0 : (basesOf done).count (baseName m) = 0
    · rw [if_pos h0] at h
      exact Option.noConfusion h
    · rw [if_neg h0] at h
      have hc := (Option.some.inj h).symm
      exact ⟨hc, fun hh => h0 (by rw [hc, hh])⟩
  have hge2 : 2 ≤ c := by
    rcases Nat.lt_or_ge c 2 with hlt | hge
    · have hc1 : c = 1 := by omega
      subst hc1
      obtain ⟨j₁, hj₁, hgd₁, hnm₁, -⟩ := pos_of_count_one hcc.1
      exfalso
      have hentry : (finalNameIn done j₁, done.getD j₁ ∅) ∈ st.1 :=
        (hmemiff _ _).mpr ⟨j₁, hj₁, rfl, rfl⟩
      exact hnotmem (keyMem_iff.mpr ⟨_, hentry, hnm₁⟩)
    · exact hge
  have hname : ∀ j, j < done.length →
      finalNameIn (done ++ [m]) j = finalNameIn done j :=
    fun j hj => finalNameIn_stable hj (fun _ => by rw [hcc.1]; exact hge2)
  have hlast : finalNameIn (done ++ [m]) done.length =
      baseName m ++ "_" ++ Nat.repr (c + 1) := by
    rw [finalNameIn_append_last, if_neg (by rw [hcc.1]; exact hcc.2), hcc.1]
  have hlen : (done ++ [m]).length = done.length + 1 := by simp
  refine ⟨nodup_keys_snoc hnd hfresh, ?_, ?_, ?_⟩
  · intro nm v
    constructor
    · intro hmm
      rcases List.mem_append.mp hmm with hold | hnew
      · obtain ⟨j, hj, hnm, hv⟩ := (hmemiff nm v).mp hold
        exact ⟨j, by rw [hlen]; omega, by rw [hname j hj]; exact hnm,
          by rw [getD_append_lt m hj]; exact hv⟩
      · have hpair : nm = baseName m ++ "_" ++ Nat.repr (c + 1) ∧ v = m := by
          simpa using hnew
        exact ⟨done.length, by rw [hlen]; omega, by rw [hlast]; exact hpair.1,
          by rw [getD_append_last]; exact hpair.2⟩
    · rintro ⟨j, hj, hnm, hv⟩
      rw [hlen] at hj
      by_cases hjn : j < done.length
      · refine List.mem_append.mpr (Or.inl ?_)
        refine (hmemiff nm v).mpr ⟨j, hjn, ?_, ?_⟩
        · rw [← hname j hjn]; exact hnm
        · rw [← getD_append_lt m hjn]; exact hv
      · have hj' : j = done.length := by omega
        subst hj'
        refine List.mem_append.mpr (Or.inr ?_)
        rw [hlast] at hnm
        rw [getD_append_last] at hv
        simp [hnm, hv]
  · intro b'
    show updateCount st.2 (baseName m) (c + 1) b' = _
    unfold updateCount
    by_cases hb' : b' = baseName m
    · subst hb'
      rw [if_pos rfl, count_basesOf_append_self, hcc.1]
      simp
    · rw [if_neg hb', hkc b', count_basesOf_append_ne done hb']
  · intro j j' hj hj' heq
    rw [hlen] at hj hj'
    by_cases h1 : j < done.length <;> by_cases h2 : j' < done.length
    · rw [hname j h1, hname j' h2] at heq
      exact hinj j j' h1 h2 heq
    · have hj'' : j' = done.length := by omega
      subst hj''
      rw [hname j h1, hlast] at heq
      exfalso
      have hent : (finalNameIn done j, done.getD j ∅) ∈ st.1 :=
        (hmemiff _ _).mpr ⟨j, h1, rfl, rfl⟩
      exact hfresh (keyMem_iff.mpr ⟨_, hent, heq⟩)
    · have hj'' : j = done.length := by omega
      subst hj''
      rw [hname j' h2, hlast] at heq
      exfalso
      have hent : (finalNameIn done j', done.getD j' ∅) ∈ st.1 :=
        (hmemiff _ _).mpr ⟨j', h2, rfl, rfl⟩
      exact hfresh (keyMem_iff.mpr ⟨_, hent, heq.symm⟩)
    · omega

theorem inv_demote {done : List (Finset String)} {st : NamerState}
    {m : Finset String} (hinv : Inv done st)
    (hkcb : st.2 (baseName m) = some 1)
    (hmem : keyMem (baseName m) st.1 = true)
    (h1fresh : ¬ keyMem (baseName m ++ "_1") st.1 = true)
    (hnfresh : ¬ keyMem (baseName m ++ "_" ++ Nat.repr 2)
      ((st.1.eraseP (fun p => p.1 == baseName m)) ++
        [(baseName m ++ "_1", lookupVal (baseName m) st.1)]) = true) :
    Inv (done ++ [m])
      (((st.1.eraseP (fun p => p.1 == baseName m)) ++
          [(baseName m ++ "_1", lookupVal (baseName m) st.1)]) ++
          [(baseName m ++ "_" ++ Nat.repr 2, m)],
        updateCount st.2 (baseName m) 2) := by
  obtain ⟨hnd, hmemiff, hkc, hinj⟩ := hinv
  have hc1 : (basesOf done).count (baseName m) = 1 := by
    have h := hkc (baseName m)
    rw [hkcb] at h
    by_cases h0 : (basesOf done).count (baseName m) = 0
    · rw [if_pos h0] at h
      exact Option.noConfusion h
    · rw [if_neg h0] at h
      exact (Option.some.inj h).symm
  obtain ⟨j₁, hj₁, hgd₁, hnm₁, huniq⟩ := pos_of_count_one hc1
  have hentry₁ : (baseName m, done.getD j₁ ∅) ∈ st.1 := by
    have h := (hmemiff _ _).mpr ⟨j₁, hj₁, rfl, rfl⟩
    rw [hnm₁] at h
    exact h
  have hval : lookupVal (baseName m) st.1 = done.getD j₁ ∅ :=
    lookupVal_eq_of_mem hnd hentry₁
  have hdem := finalNameIn_append_demoted hj₁ hgd₁ hc1
  have hstab : ∀ j, j < done.length → j ≠ j₁ →
      finalNameIn (done ++ [m]) j = finalNameIn done j := by
    intro j hj hne
    exact finalNameIn_stable hj (fun hbj => False.elim (hne (huniq j hj hbj)))
  have hlast : finalNameIn (done ++ [m]) done.length =
      baseName m ++ "_" ++ Nat.repr 2 := by
    rw [finalNameIn_append_last, if_neg (by omega), hc1]
  have hneb : ∀ j, j < done.length → j ≠ j₁ → finalNameIn done j ≠ baseName m := by
    intro j hj hne heq
    exact hne (hinj j j₁ hj hj₁ (by rw [heq, hnm₁]))
  have hkmem : ∃ p ∈ st.1, p.1 = baseName m := keyMem_iff.mp hmem
  have herase := mem_eraseP_key hnd hkmem
  have hnderase : (((st.1.eraseP (fun p => p.1 == baseName m)).map Prod.fst)).Nodup := by
    obtain ⟨v0, l₁, l₂, hl₁, hl, he, -⟩ := eraseP_key_decomp hkmem
    have hnd2 := hnd
    rw [hl] at hnd2
    rw [he]
    exact (nodup_keys_middle hnd2).1
  have h1freshE : ¬ keyMem (baseName m ++ "_1")
      (st.1.eraseP (fun p => p.1 == baseName m)) = true := by
    intro hk
    obtain ⟨p, hp, hpk⟩ := keyMem_iff.mp hk
    exact h1fresh (keyMem_iff.mpr ⟨p, ((herase p).mp hp).1, hpk⟩)
  have hnddem : ((((st.1.eraseP (fun p => p.1 == baseName m)) ++
      [(baseName m ++ "_1", lookupVal (baseName m) st.1)]).map Prod.fst)).Nodup :=
    nodup_keys_snoc hnderase h1freshE
  have hlen : (done ++ [m]).length = done.length + 1 := by simp
  refine ⟨nodup_keys_snoc hnddem hnfresh, ?_, ?_, ?_⟩
  · intro nm v
    constructor
    · intro hmm
      rcases List.mem_append.mp hmm with hdm | hnew2
      · rcases List.mem_append.mp hdm with her | hb1
        · obtain ⟨hin, hneq⟩ := (herase (nm, v)).mp her
          obtain ⟨j, hj, hnm, hv⟩ := (hmemiff nm v).mp hin
          have hjne : j ≠ j₁ := fun hh => hneq (by rw [hnm, hh, hnm₁])
          exact ⟨j, by rw [hlen]; omega, by rw [hstab j hj hjne]; exact hnm,
            by rw [getD_append_lt m hj]; exact hv⟩
        · have hpair : nm = baseName m ++ "_1" ∧ v = lookupVal (baseName m) st.1 := by
            simpa using hb1
          refine ⟨j₁, by rw [hlen]; omega, ?_, ?_⟩
          · rw [hdem.1, ← underscore_one]
            exact hpair.1
          · rw [getD_append_lt m hj₁, ← hval]
            exact hpair.2
      · have hpair : nm = baseName m ++ "_" ++ Nat.repr 2 ∧ v = m := by
          simpa using hnew2
        exact ⟨done.length, by rw [hlen]; omega, by rw [hlast]; exact hpair.1,
          by rw [getD_append_last]; exact hpair.2⟩
    · rintro ⟨j, hj, hnm, hv⟩
      rw [hlen] at hj
      by_cases hjn : j < done.length
      · by_cases hjj : j = j₁
        · subst hjj
          refine List.mem_append.mpr (Or.inl (List.mem_append.mpr (Or.inr ?_)))
          have h1 : nm = baseName m ++ "_1" := by
            rw [hnm, hdem.1, ← underscore_one]
          rw [getD_append_lt m hj₁] at hv
          have h2 : v = lookupVal (baseName m) st.1 := by
            rw [hv, ← hval]
          simp [h1, h2]
        · have hent : (nm, v) ∈ st.1 := by
            refine (hmemiff nm v).mpr ⟨j, hjn, ?_, ?_⟩
            · rw [← hstab j hjn hjj]
              exact hnm
            · rw [← getD_append_lt m hjn]
              exact hv
          have hneq : nm ≠ baseName m := by
            rw [hnm, hstab j hjn hjj]
            exact hneb j hjn hjj
          exact List.mem_append.mpr (Or.inl (List.mem_append.mpr
            (Or.inl ((herase (nm, v)).mpr ⟨hent, hneq⟩))))
      · have hj' : j = done.length := by omega
        subst hj'
        refine List.mem_append.mpr (Or.inr ?_)
        rw [hlast] at hnm
        rw [getD_append_last] at hv
        simp [hnm, hv]
  · intro b'
    show updateCount st.2 (baseName m) 2 b' = _
    unfold updateCount
    by_cases hb' : b' = baseName m
    · subst hb'
      rw [if_pos rfl, count_basesOf_append_self, hc1]
      simp
    · rw [if_neg hb', hkc b', count_basesOf_append_ne done hb']
  · intro j j' hj hj' heq
    rw [hlen] at hj hj'
    by_cases h1 : j < done.length <;> by_cases h2 : j' < done.length
    · by_cases hja : j = j₁ <;> by_cases hjb : j' = j₁
      · rw [hja, hjb]
      · exfalso
        subst hja
        rw [hdem.1, hstab j' h2 hjb] at heq
        have hent : (finalNameIn done j', done.getD j' ∅) ∈ st.1 :=
          (hmemiff _ _).mpr ⟨j', h2, rfl, rfl⟩
        refine h1fresh (keyMem_iff.mpr ⟨_, hent, ?_⟩)
        rw [underscore_one]
        exact heq.symm
      · exfalso
        subst hjb
        rw [hdem.1, hstab j h1 hja] at heq
        have hent : (finalNameIn done j, done.getD j ∅) ∈ st.1 :=
          (hmemiff _ _).mpr ⟨j, h1, rfl, rfl⟩
        refine h1fresh (keyMem_iff.mpr ⟨_, hent, ?_⟩)
        rw [underscore_one]
        exact heq
      · rw [hstab j h1 hja, hstab j' h2 hjb] at heq
        exact hinj j j' h1 h2 heq
    · exfalso
      have hj'' : j' = done.length := by omega
      subst hj''
      rw [hlast] at heq
      by_cases hja : j = j₁
      · subst hja
        rw [hdem.1] at heq
        refine hnfresh (keyMem_iff.mpr
          ⟨(baseName m ++ "_1", lookupVal (baseName m) st.1),
            List.mem_append.mpr (Or.inr (List.mem_singleton.mpr rfl)), ?_⟩)
        rw [underscore_one]
        exact heq
      · rw [hstab j h1 hja] at heq
        have hent : (finalNameIn done j, done.getD j ∅) ∈ st.1 :=
          (hmemiff _ _).mpr ⟨j, h1, rfl, rfl⟩
        have herm : (finalNameIn done j, done.getD j ∅) ∈
            st.1.eraseP (fun p => p.1 == baseName m) :=
          (herase _).mpr ⟨hent, hneb j h1 hja⟩
        exact hnfresh (keyMem_iff.mpr ⟨_, List.mem_append.mpr (Or.inl herm), heq⟩)
    · exfalso
      have hj'' : j = done.length := by omega
      subst hj''
      rw [hlast] at heq
      by_cases hjb : j' = j₁
      · subst hjb
        rw [hdem.1] at heq
        refine hnfresh (keyMem_iff.mpr
          ⟨(baseName m ++ "_1", lookupVal (baseName m) st.1),
            List.mem_append.mpr (Or.inr (List.mem_singleton.mpr rfl)), ?_⟩)
        rw [underscore_one]
        exact heq.symm
      · rw [hstab j' h2 hjb] at heq
        have hent : (finalNameIn done j', done.getD j' ∅) ∈ st.1 :=
          (hmemiff _ _).mpr ⟨j', h2, rfl, rfl⟩
        have herm : (finalNameIn done j', done.getD j' ∅) ∈
            st.1.eraseP (fun p => p.1 == baseName m) :=
          (herase _).mpr ⟨hent, hneb j' h2 hjb⟩
        exact hnfresh (keyMem_iff.mpr ⟨_, List.mem_append.mpr (Or.inl herm), heq.symm⟩)
    · omega

theorem renameStep_inv {done : List (Finset String)} {st st' : NamerState}
    {m : Finset String} (hinv : Inv done st) (hstep : renameStep st m = some st') :
    Inv (done ++ [m]) st' := by
  simp only [renameStep] at hstep
  split at hstep
  · rename_i c hkcb
    split at hstep
    · rename_i hmem
      split at hstep
      · rename_i hc1
        subst hc1
        split at hstep
        · exact absurd hstep (by simp)
        · split at hstep
          · exact absurd hstep (by simp)
          · rename_i h1fresh hnfresh
            cases hstep
            exact inv_demote hinv hkcb hmem h1fresh hnfresh
      · exact absurd hstep (by simp)
    · rename_i hmem
      split at hstep
      · exact absurd hstep (by simp)
      · rename_i hfresh
        cases hstep
        exact inv_insert_suffix hinv hkcb hmem hfresh
  · rename_i hkcb
    split at hstep
    · exact absurd hstep (by simp)
    · rename_i hfresh
      cases hstep
      exact inv_insert_fresh hinv hkcb hfresh

theorem runSteps_inv {rest : List (Finset String)} {done : List (Finset String)}
    {st st' : NamerState} (hinv : Inv done st)
    (hrun : runSteps st rest = some st') : Inv (done ++ rest) st' := by
  induction rest generalizing done st with
  | nil =>
      simp only [runSteps] at hrun
      cases hrun
      simpa using hinv
  | cons m tl ih =>
      simp only [runSteps] at hrun
      split at hrun
      · exact absurd hrun (by simp)
      · rename_i st₁ hstep
        have h2 := ih (renameStep_inv hinv hstep) hrun
        rw [List.append_assoc] at h2
        simpa using h2

theorem Inv_init : Inv [] initState := by
  refine ⟨List.nodup_nil, ?_, ?_, ?_⟩
  · intro nm v
    constructor
    · intro h
      exact absurd h (List.not_mem_nil _)
    · rintro ⟨j, hj, -, -⟩
      simp at hj
  · intro b'
    simp [initState, basesOf]
  · intro j j' hj hj'
    simp at hj

theorem rename_clusters_inv {input out : List (String × Finset String)}
    (h : rename_clusters input = some out) :
    ∃ stf : NamerState, stf.1 = out ∧ Inv (sortedMembers input) stf := by
  rw [rename_clusters] at h
  obtain ⟨stf, hrun, hout⟩ := Option.map_eq_some'.mp h
  exact ⟨stf, hout, by simpa using runSteps_inv Inv_init hrun⟩

theorem runSteps_append (st : NamerState) (l₁ l₂ : List (Finset String)) :
    runSteps st (l₁ ++ l₂) = (runSteps st l₁).bind (fun st₁ => runSteps st₁ l₂) := by
  induction l₁ generalizing st with
  | nil => simp [runSteps]
  | cons m tl ih =>
      simp only [List.cons_append, runSteps]
      cases hrs : renameStep st m with
      | none => simp
      | some st₁ => simpa using ih st₁

theorem runSteps_take_isSome {st stf : NamerState} {ms : List (Finset String)}
    (t : Nat) (h : runSteps st ms = some stf) :
    ∃ st₁, runSteps st (ms.take t) = some st₁ := by
  have hsplit := runSteps_append st (ms.take t) (ms.drop t)
  rw [List.take_append_drop, h] at hsplit
  cases hq : runSteps st (ms.take t) with
  | none =>
      rw [hq] at hsplit
      simp at hsplit
  | some st₁ => exact ⟨st₁, rfl⟩

theorem runSteps_total_of_distinct {rest : List (Finset String)}
    {done : List (Finset String)} {st : NamerState} (hinv : Inv done st)
    (hnodup : (basesOf (done ++ rest)).Nodup) :
    ∃ st', runSteps st rest = some st' := by
  induction rest generalizing done st with
  | nil => exact ⟨st, rfl⟩
  | cons m tl ih =>
      have hc0 : (basesOf done).count (baseName m) = 0 := by
        by_contra h0
        have hmm : baseName m ∈ basesOf done := List.count_pos_iff.mp (by omega)
        have hsplit : basesOf (done ++ m :: tl) =
            basesOf done ++ baseName m :: basesOf tl := by
          simp [basesOf]
        rw [hsplit, List.nodup_middle] at hnodup
        exact (List.nodup_cons.mp hnodup).1 (List.mem_append.mpr (Or.inl hmm))
      obtain ⟨hkcb, hfresh⟩ : st.2 (baseName m) = none ∧
          ¬ keyMem (baseName m) st.1 = true := by
        obtain ⟨hnd, hmemiff, hkc, hinj⟩ := hinv
        refine ⟨by rw [hkc, if_pos hc0], ?_⟩
        intro hk
        obtain ⟨p, hp, hpk⟩ := keyMem_iff.mp hk
        obtain ⟨j, hj, hnm, hv⟩ := (hmemiff p.1 p.2).mp (by rw [Prod.mk.eta]; exact hp)
        have hgmem : (basesOf done).getD j "" ∈ basesOf done :=
          getD_mem_of_lt (by rw [basesOf_length]; exact hj)
        have hcount1 : (basesOf done).count ((basesOf done).getD j "") = 1 := by
          have hpos := List.count_pos_iff.mpr hgmem
          have hnd1 : (basesOf done).Nodup := by
            have hsplit : basesOf (done ++ m :: tl) =
                basesOf done ++ basesOf (m :: tl) := by simp [basesOf]
            rw [hsplit] at hnodup
            exact hnodup.of_append_left
          have := List.nodup_iff_count_le_one.mp hnd1 ((basesOf done).getD j "")
          omega
        have hname : finalNameIn done j = (basesOf done).getD j "" := by
          unfold finalNameIn
          rw [if_pos hcount1]
        rw [hname] at hnm
        have hmem2 : baseName m ∈ basesOf done := by
          rw [← hpk, hnm]
          exact hgmem
        have := List.count_pos_iff.mpr hmem2
        omega
      have hstep : renameStep st m =
          some (st.1 ++ [(baseName m, m)], updateCount st.2 (baseName m) 1) := by
        simp only [renameStep, hkcb]
        rw [if_neg hfresh]
      have hinv' := inv_insert_fresh hinv hkcb hfresh
      obtain ⟨st', hst'⟩ := ih hinv' (by
        have heq : done ++ [m] ++ tl = done ++ m :: tl := by
          rw [List.append_assoc]
          rfl
        rw [heq]
        exact hnodup)
      refine ⟨st', ?_⟩
      simp only [runSteps]
      rw [hstep]
      exact hst'

/-! ## Determinism machinery (C8) -/

def keyLt (a b : String × Finset String) : Prop := keyLe a b ∧ a.1 ≠ b.1

instance : IsAntisymm (String × Finset String) keyLt :=
  ⟨fun a b h₁ h₂ => absurd (antisymm (r := strLe) h₁.1 h₂.1) h₁.2⟩

theorem sortClusters_sorted_lt {l : List (String × Finset String)}
    (hnd : (l.map Prod.fst).Nodup) : List.Sorted keyLt (sortClusters l) := by
  have hs : List.Sorted keyLe (sortClusters l) := List.sorted_insertionSort keyLe l
  have hndk : ((sortClusters l).map Prod.fst).Nodup :=
    ((List.perm_insertionSort keyLe l).map Prod.fst).nodup_iff.mpr hnd
  have hpw : (sortClusters l).Pairwise (fun a b => a.1 ≠ b.1) :=
    List.pairwise_map.mp hndk
  exact (hs.and hpw).imp (fun h => ⟨h.1, h.2⟩)

theorem sortClusters_eq_of_perm {l₁ l₂ : List (String × Finset String)}
    (hnd : (l₁.map Prod.fst).Nodup) (hp : l₁.Perm l₂) :
    sortClusters l₁ = sortClusters l₂ := by
  have hnd₂ : (l₂.map Prod.fst).Nodup := ((hp.map Prod.fst).nodup_iff).mp hnd
  exact List.eq_of_perm_of_sorted
    ((List.perm_insertionSort keyLe l₁).trans
      (hp.trans (List.perm_insertionSort keyLe l₂).symm))
    (sortClusters_sorted_lt hnd) (sortClusters_sorted_lt hnd₂)

/-! ## Frame machinery (C9)

The loop body of the source reads `clusters_in` (through the snapshots
`sorted(clusters_in.items())` and `name_set`) and writes only
`new_clusters` and `key_count`.  `runStepsTracked` threads the input dict
through the loop exactly as the source holds it: no iteration modifies it. -/

def runStepsTracked (st : NamerState) (clusters_in : List (String × Finset String)) :
    List (Finset String) → Option (NamerState × List (String × Finset String))
  | [] => some (st, clusters_in)
  | m :: rest =>
      match renameStep st m with
      | none => none
      | some st' => runStepsTracked st' clusters_in rest

/-- `_rename_clusters`, returning alongside its result the input dict as the
call leaves it. -/
def rename_clusters_tracked (clusters_in : List (String × Finset String)) :
    Option (List (String × Finset String) × List (String × Finset String)) :=
  (runStepsTracked initState clusters_in (sortedMembers clusters_in)).map
    (fun p => (p.1.1, p.2))

theorem runStepsTracked_spec {ms : List (Finset String)} {st : NamerState}
    {ci : List (String × Finset String)}
    {r : NamerState × List (String × Finset String)}
    (h : runStepsTracked st ci ms = some r) :
    r.2 = ci ∧ runSteps st ms = some r.1 := by
  induction ms generalizing st with
  | nil =>
      simp only [runStepsTracked] at h
      cases h
      exact ⟨rfl, rfl⟩
  | cons m rest ih =>
      simp only [runStepsTracked] at h
      split at h
      · exact absurd h (by simp)
      · rename_i st₁ hstep
        obtain ⟨h1, h2⟩ := ih h
        refine ⟨h1, ?_⟩
        simp only [runSteps]
        rw [hstep]
        exact h2

theorem basesOf_getD_eq_baseName {done : List (Finset String)} {j : Nat}
    (hj : j < done.length) :
    (basesOf done).getD j "" = baseName (done.getD j ∅) := by
  have hjb : j < (basesOf done).length := by rw [basesOf_length]; exact hj
  rw [List.getD_eq_getElem _ _ hjb, List.getD_eq_getElem _ _ hj]
  simp [basesOf]

theorem getD_take_eq {α : Type} {l : List α} {t j : Nat} (d : α) (hj : j < t)
    (hjl : j < l.length) : (l.take t).getD j d = l.getD j d := by
  have hjt : j < (l.take t).length := by
    rw [List.length_take]
    omega
  rw [List.getD_eq_getElem _ _ hjt, List.getD_eq_getElem _ _ hjl]
  simp [List.getElem_take]

/-! ## The claims -/

/-- Claim C1: for every input mapping, a mapping returned by
`_rename_clusters` has pairwise-distinct keys — no two clusters are
assigned the same final name. -/
theorem C1_output_keys_nodup (input out : List (String × Finset String))
    (h : rename_clusters input = some out) : (out.map Prod.fst).Nodup := by
  rw [rename_clusters] at h
  obtain ⟨stf, hrun, hout⟩ := Option.map_eq_some'.mp h
  rw [← hout]
  exact runSteps_nodup (by simp [initState]) hrun

/-- Claim C2: for every non-empty input mapping on which `_rename_clusters`
returns, the output has exactly one entry per input cluster, its member
sets are exactly the input member sets re-keyed (a permutation of them,
hence no member set and no member is lost or duplicated), and the union of
the output member sets equals the union of the input member sets. -/
theorem C2_coverage (input out : List (String × Finset String))
    (hne : input ≠ []) (h : rename_clusters input = some out) :
    out.length = input.length ∧
      (out.map Prod.snd).Perm (input.map Prod.snd) ∧
      ((out.map Prod.snd : List (Finset String)) : Multiset (Finset String)).sup =
        ((input.map Prod.snd : List (Finset String)) : Multiset (Finset String)).sup := by
  rw [rename_clusters] at h
  obtain ⟨stf, hrun, hout⟩ := Option.map_eq_some'.mp h
  obtain ⟨hlen, hperm⟩ := runSteps_values hrun
  have hsortperm : (sortClusters input).Perm input := List.perm_insertionSort keyLe input
  have hperm2 : (sortedMembers input).Perm (input.map Prod.snd) := by
    rw [sortedMembers]
    exact hsortperm.map Prod.snd
  have hpermout : (out.map Prod.snd).Perm (input.map Prod.snd) := by
    rw [← hout]
    refine hperm.trans ?_
    simpa [initState] using hperm2
  refine ⟨?_, hpermout, ?_⟩
  · rw [← hout, hlen]
    have hlen2 : (sortedMembers input).length = input.length := by
      rw [sortedMembers, List.length_map]
      exact hsortperm.length_eq
    simp [initState, hlen2]
  · rw [Multiset.coe_eq_coe.mpr hpermout]

/-- Claim C3 (counterexample): `_rename_clusters` is not total over
non-empty mappings.  Here the clusters keyed `"a"` and `"c"` both derive
the base name `cluster`, and the cluster keyed `"b"` derives the base name
`cluster_1`; the demotion step's assertion `new_key + '_1' not in
new_clusters` fails, modelled as the result `none`. -/
theorem C3_counterexample :
    ([("a", ({"p", "q"} : Finset String)), ("b", {"cluster_1.zz"}), ("c", {"r", "s"})] ≠
      ([] : List (String × Finset String))) ∧
      rename_clusters
        [("a", {"p", "q"}), ("b", {"cluster_1.zz"}), ("c", {"r", "s"})] = none := by
  exact ⟨by decide, by decide⟩

/-- Claim C3 (amended): `_rename_clusters` raises no error on any non-empty
mapping whose derived base names are pairwise distinct; when base names
repeat, the collision-suffix machinery runs, and an internal assertion
fails (no result) when a suffixed name collides with another derived base
name. -/
theorem C3_total_amended (input : List (String × Finset String))
    (hne : input ≠ [])
    (hnodup : (basesOf (sortedMembers input)).Nodup) :
    ∃ out, rename_clusters input = some out := by
  obtain ⟨st', hst'⟩ := @runSteps_total_of_distinct (sortedMembers input) [] initState
    Inv_init (by simpa using hnodup)
  exact ⟨st'.1, by rw [rename_clusters, hst']; rfl⟩

/-- Claim C4 (counterexample): as stated, the claim fails.  On this input
two clusters (sorted keys `"a"` and `"c"`) derive the same base name
`cluster`, yet the second colliding cluster does not receive
`cluster_2` — the function fails its demotion assertion (result `none`),
because the cluster keyed `"b"` already owns the name `cluster_1`. -/
theorem C4_counterexample :
    2 ≤ (basesOf (sortedMembers
        [("a", ({"p"} : Finset String)), ("b", {"cluster_1.z"}), ("c", {"q"})])).count
        "cluster" ∧
      rename_clusters [("a", {"p"}), ("b", {"cluster_1.z"}), ("c", {"q"})] = none := by
  exact ⟨by decide, by decide⟩

/-- Claim C4 (amended): on every input on which `_rename_clusters` returns
a result, a cluster whose base name is derived by two or more clusters
ends up named `base_k`, where `k` is its occurrence index among the
clusters deriving that base (in sorted-key order): the first such cluster
is retroactively renamed to `base_1`, the second receives `base_2`, the
k-th `base_k`.  Moreover, as long as only one cluster has derived the
base (any prefix `take t` of the run with a single occurrence), that
cluster still holds the unsuffixed base name. -/
theorem C4_collision_suffixes (input out : List (String × Finset String))
    (h : rename_clusters input = some out) (j : Nat)
    (hj : j < (sortedMembers input).length)
    (hcoll : 2 ≤ (basesOf (sortedMembers input)).count
      ((basesOf (sortedMembers input)).getD j "")) :
    ((basesOf (sortedMembers input)).getD j "" ++ "_" ++
        Nat.repr (occCount (sortedMembers input) j),
      (sortedMembers input).getD j ∅) ∈ out ∧
      ∀ t, t ≤ (sortedMembers input).length → j < t →
        ((basesOf (sortedMembers input)).take t).count
          ((basesOf (sortedMembers input)).getD j "") = 1 →
        ∃ st₁, runSteps initState ((sortedMembers input).take t) = some st₁ ∧
          ((basesOf (sortedMembers input)).getD j "",
            (sortedMembers input).getD j ∅) ∈ st₁.1 := by
  obtain ⟨stf, hout, hinv⟩ := rename_clusters_inv h
  obtain ⟨-, hmemiff, -, -⟩ := hinv
  constructor
  · have hmem := (hmemiff _ _).mpr ⟨j, hj, rfl, rfl⟩
    rw [hout] at hmem
    have hname : finalNameIn (sortedMembers input) j =
        (basesOf (sortedMembers input)).getD j "" ++ "_" ++
          Nat.repr (occCount (sortedMembers input) j) := by
      unfold finalNameIn
      rw [if_neg (by omega)]
    rw [hname] at hmem
    exact hmem
  · intro t ht hjt hcnt1
    rw [rename_clusters] at h
    obtain ⟨stf2, hrun, -⟩ := Option.map_eq_some'.mp h
    obtain ⟨st₁, hst₁⟩ := runSteps_take_isSome t hrun
    refine ⟨st₁, hst₁, ?_⟩
    have hinv₁ : Inv ((sortedMembers input).take t) st₁ := by
      have := runSteps_inv Inv_init hst₁
      simpa using this
    obtain ⟨-, hmem1, -, -⟩ := hinv₁
    have hjt' : j < ((sortedMembers input).take t).length := by
      rw [List.length_take]
      omega
    have hbase : basesOf ((sortedMembers input).take t) =
        (basesOf (sortedMembers input)).take t := by
      simp [basesOf, List.map_take]
    have hgd : (basesOf ((sortedMembers input).take t)).getD j "" =
        (basesOf (sortedMembers input)).getD j "" := by
      rw [hbase]
      exact getD_take_eq "" hjt (by rw [basesOf_length]; exact hj)
    have hname : finalNameIn ((sortedMembers input).take t) j =
        (basesOf (sortedMembers input)).getD j "" := by
      unfold finalNameIn
      rw [hgd, hbase, hcnt1, if_pos rfl]
    have hval : ((sortedMembers input).take t).getD j ∅ =
        (sortedMembers input).getD j ∅ := getD_take_eq ∅ hjt hj
    have hin := (hmem1 _ _).mpr ⟨j, hjt', rfl, rfl⟩
    rw [hname, hval] at hin
    exact hin

/-- Claim C8: `_rename_clusters` is deterministic — on two presentations of
the same mapping (same key-member pairs, any insertion order) it returns
identical results, because clusters are processed in sorted-key order. -/
theorem C8_deterministic (l₁ l₂ : List (String × Finset String))
    (hnd : (l₁.map Prod.fst).Nodup) (hp : l₁.Perm l₂) :
    rename_clusters l₁ = rename_clusters l₂ := by
  rw [rename_clusters, rename_clusters, sortedMembers, sortedMembers,
    sortClusters_eq_of_perm hnd hp]

/-- Claim C9: `_rename_clusters` does not mutate its input: threading the
input dict through the loop as the source holds it, the dict after the
call is exactly the original, and the returned value is the usual result. -/
theorem C9_input_not_mutated (clusters_in : List (String × Finset String))
    (r : List (String × Finset String) × List (String × Finset String))
    (h : rename_clusters_tracked clusters_in = some r) :
    r.2 = clusters_in ∧ rename_clusters clusters_in = some r.1 := by
  rw [rename_clusters_tracked] at h
  obtain ⟨p, hp, hr⟩ := Option.map_eq_some'.mp h
  obtain ⟨h1, h2⟩ := runStepsTracked_spec hp
  subst hr
  exact ⟨h1, by rw [rename_clusters, h2]; rfl⟩

/-- Claim C10: every name in a returned mapping is either the base name
derived from that entry's member set, or that base name followed by `_`
and a decimal integer `k ≥ 1`; the suffix is applied uniformly, also to
base names already ending in `+` or `-`. -/
theorem C10_name_shape (input out : List (String × Finset String))
    (h : rename_clusters input = some out) :
    ∀ nm v, (nm, v) ∈ out →
      nm = baseName v ∨ ∃ k, 1 ≤ k ∧ nm = baseName v ++ "_" ++ Nat.repr k := by
  obtain ⟨stf, hout, hinv⟩ := rename_clusters_inv h
  obtain ⟨-, hmemiff, -, -⟩ := hinv
  intro nm v hmem
  rw [← hout] at hmem
  obtain ⟨j, hj, hnm, hv⟩ := (hmemiff nm v).mp hmem
  have hbase : (basesOf (sortedMembers input)).getD j "" = baseName v := by
    rw [hv]
    exact basesOf_getD_eq_baseName hj
  unfold finalNameIn at hnm
  by_cases hc : (basesOf (sortedMembers input)).count
      ((basesOf (sortedMembers input)).getD j "") = 1
  · rw [if_pos hc] at hnm
    left
    rw [hnm, hbase]
  · rw [if_neg hc] at hnm
    right
    refine ⟨occCount (sortedMembers input) j, ?_, by rw [hnm, hbase]⟩
    have := take_count_pos (l := basesOf (sortedMembers input))
      (j := j) (by rw [basesOf_length]; exact hj)
    exact this

/-! ## Witnesses -/

/-- Witness for C1: a concrete run with a name collision still yields
pairwise-distinct keys. -/
theorem C1_witness :
    (([("cluster_1", ({"y"} : Finset String)), ("cluster_2", {"x"})]).map Prod.fst).Nodup :=
  C1_output_keys_nodup [("b", {"x"}), ("a", {"y"})]
    [("cluster_1", {"y"}), ("cluster_2", {"x"})] (by decide)

/-- Witness for C2 at a concrete singleton input. -/
theorem C2_witness :
    [("geneA", ({"geneA.1", "geneA.2"} : Finset String))].length =
        [("k", ({"geneA.1", "geneA.2"} : Finset String))].length ∧
      (([("geneA", ({"geneA.1", "geneA.2"} : Finset String))].map Prod.snd).Perm
        ([("k", ({"geneA.1", "geneA.2"} : Finset String))].map Prod.snd)) ∧
      ((([("geneA", ({"geneA.1", "geneA.2"} : Finset String))].map Prod.snd :
          List (Finset String)) : Multiset (Finset String)).sup =
        (([("k", ({"geneA.1", "geneA.2"} : Finset String))].map Prod.snd :
          List (Finset String)) : Multiset (Finset String)).sup) :=
  C2_coverage [("k", {"geneA.1", "geneA.2"})] [("geneA", {"geneA.1", "geneA.2"})]
    (by decide) (by decide)

/-- Witness for the amended C3: distinct base names, a result exists. -/
theorem C3_witness :
    ∃ out, rename_clusters [("a", ({"aaa.1"} : Finset String)), ("b", {"bbb.1"})] =
      some out :=
  C3_total_amended [("a", {"aaa.1"}), ("b", {"bbb.1"})] (by decide) (by decide)

/-- Witness for the amended C4: two `cluster`-based clusters end as
`cluster_1`/`cluster_2`, and after the first step alone the first cluster
still holds the unsuffixed name `cluster`. -/
theorem C4_witness :
    ("cluster_2", ({"q2"} : Finset String)) ∈
        [("cluster_1", ({"p1"} : Finset String)), ("cluster_2", {"q2"})] ∧
      ∃ st₁, runSteps initState [({"p1"} : Finset String)] = some st₁ ∧
        ("cluster", ({"p1"} : Finset String)) ∈ st₁.1 := by
  have h := C4_collision_suffixes [("a", {"p1"}), ("b", {"q2"})]
    [("cluster_1", {"p1"}), ("cluster_2", {"q2"})] (by decide) 1 (by decide) (by decide)
  have h0 := C4_collision_suffixes [("a", {"p1"}), ("b", {"q2"})]
    [("cluster_1", {"p1"}), ("cluster_2", {"q2"})] (by decide) 0 (by decide) (by decide)
  exact ⟨h.1, h0.2 1 (by decide) (by decide) (by decide)⟩

/-- Witness for C5: one qualifying stem with partial coverage gets `+`. -/
theorem C5_witness : baseName ({"geneA.1", "other"} : Finset String) = "geneA+" :=
  (C5_single_stem {"geneA.1", "other"} "geneA" (by decide)).2.mpr (by decide)

/-- Witness for C6: the common-stem case of the spec. -/
theorem C6_witness :
    baseName ({"geneAlpha.1", "geneAbeta.1"} : Finset String) = "geneA-" := by
  have hlongest : ∀ c : String,
      (∀ x ∈ candStems ({"geneAlpha.1", "geneAbeta.1"} : Finset String),
        List.IsPrefix c.data x.data) → c.length ≤ ("geneA" : String).length := by
    intro c hc
    by_contra hgt
    push_neg at hgt
    obtain ⟨tA, htA⟩ := hc "geneAlpha" (by decide)
    obtain ⟨tB, htB⟩ := hc "geneAbeta" (by decide)
    have h5 : 5 < c.data.length := by
      have hl : c.length = c.data.length := rfl
      have hg : ("geneA" : String).length = 5 := by decide
      omega
    have hA5 : c.data.getD 5 ' ' = 'l' := by
      have h := congrArg (fun l => l.getD 5 ' ') htA
      simp only at h
      rw [List.getD_append _ _ _ _ h5] at h
      exact h.trans (by decide)
    have hB5 : c.data.getD 5 ' ' = 'b' := by
      have h := congrArg (fun l => l.getD 5 ' ') htB
      simp only at h
      rw [List.getD_append _ _ _ _ h5] at h
      exact h.trans (by decide)
    rw [hA5] at hB5
    exact absurd hB5 (by decide)
  exact (C6_multi_stem {"geneAlpha.1", "geneAbeta.1"} "geneA" (by decide)
    (by decide) hlongest).1 (by decide)

/-- Witness for C7: the no-dot cluster of the spec. -/
theorem C7_witness :
    baseName ({"abc", "xyz"} : Finset String) = "cluster" ∧
      rename_clusters [("c1", {"abc", "xyz"})] = some [("cluster", {"abc", "xyz"})] :=
  C7_no_stem "c1" {"abc", "xyz"} (by decide)

/-- Witness for C8: the same dict in two insertion orders. -/
theorem C8_witness :
    rename_clusters [("b", ({"x.abc"} : Finset String)), ("a", {"geneA.1", "geneA.2"})] =
      rename_clusters [("a", ({"geneA.1", "geneA.2"} : Finset String)), ("b", {"x.abc"})] :=
  C8_deterministic [("b", {"x.abc"}), ("a", {"geneA.1", "geneA.2"})]
    [("a", {"geneA.1", "geneA.2"}), ("b", {"x.abc"})] (by decide) (by decide)

/-- Witness for C9 at a concrete input. -/
theorem C9_witness :
    (([("geneA", ({"geneA.1"} : Finset String))],
        [("k", ({"geneA.1"} : Finset String))]).2 =
      [("k", ({"geneA.1"} : Finset String))]) ∧
      rename_clusters [("k", ({"geneA.1"} : Finset String))] =
        some [("geneA", {"geneA.1"})] :=
  C9_input_not_mutated [("k", {"geneA.1"})]
    ([("geneA", {"geneA.1"})], [("k", {"geneA.1"})]) (by decide)

/-- Witness for C10: the suffix is applied to a base name ending in `+`,
producing `geneA+_2`. -/
theorem C10_witness :
    rename_clusters [("a", ({"geneA.1", "o1"} : Finset String)), ("b", {"geneA.2", "o2"})] =
        some [("geneA+_1", {"geneA.1", "o1"}), ("geneA+_2", {"geneA.2", "o2"})] ∧
      ("geneA+_2" = baseName ({"geneA.2", "o2"} : Finset String) ∨
        ∃ k, 1 ≤ k ∧ "geneA+_2" =
          baseName ({"geneA.2", "o2"} : Finset String) ++ "_" ++ Nat.repr k) :=
  ⟨by decide, C10_name_shape [("a", {"geneA.1", "o1"}), ("b", {"geneA.2", "o2"})]
    [("geneA+_1", {"geneA.1", "o1"}), ("geneA+_2", {"geneA.2", "o2"})]
    (by decide) "geneA+_2" {"geneA.2", "o2"} (by decide)⟩

end Ariba
